import Mathlib

/-!
Verification of the heuristic content-extraction and crawl pipeline of
`sina_blog_backup.py` (a single-file blog backup crawler).

The development shallowly embeds the pure algorithmic core of the script:
HTML documents are modelled as a rose tree of elements/text (the parse tree
produced by BeautifulSoup), the script's extraction functions
(`pick_text`, `guess_*`, `is_tag_block`, `is_noise_node`,
`guess_content_node`, `clean_content`, `safe_filename`, `parse_article`),
the image localizer (`download_images`, its SHA-1 based filename
derivation), the encoding resolver (`normalize_encoding`), link discovery
(`is_article_url`, `extract_article_links`) and the listing-accumulation
loop of `main` are translated function by function.  Network and
filesystem effects are made explicit: fetch outcomes are abstract boolean
oracles, the filesystem is an explicit set of file names, and each network
request is recorded in a log so "no fetch happened" is a provable
statement.
-/

/-! ## Character and string utilities (Python string semantics) -/

/-- Python whitespace for `str.strip` / `\s` (the characters occurring in
practice: ASCII whitespace plus NBSP and the ideographic space). -/
def pyWs (c : Char) : Bool :=
  c = ' ' || c = '\t' || c = '\n' || c = '\r' || c.val = 11 || c.val = 12 ||
  c.val = 0xA0 || c.val = 0x3000

/-- `list.dropWhile` from the right. -/
def dropWhileEnd (p : Char → Bool) (l : List Char) : List Char :=
  (l.reverse.dropWhile p).reverse

/-- Python `str.strip()` on a character list. -/
def trimC (l : List Char) : List Char :=
  dropWhileEnd pyWs (l.dropWhile pyWs)

/-- Python `str.strip()`. -/
def trimS (s : String) : String := String.mk (trimC s.toList)

/-- Lower-case a character list (`str.lower()`; ASCII is what the script's
patterns need). -/
def lowerC (l : List Char) : List Char := l.map Char.toLower

/-- Python `str.lower()`. -/
def lowerS (s : String) : String := String.mk (lowerC s.toList)

/-- Whether `pre` is a prefix of `l` (character lists). -/
def isPrefixCh : List Char → List Char → Bool
  | [], _ => true
  | _ :: _, [] => false
  | a :: as_, b :: bs => a = b && isPrefixCh as_ bs

/-- Python `needle in haystack` (substring containment) on character lists. -/
def containsSub (needle : List Char) : List Char → Bool
  | [] => isPrefixCh needle []
  | c :: rest => isPrefixCh needle (c :: rest) || containsSub needle rest

/-- Substring containment on strings: `needle in hay`. -/
def containsSubS (hay needle : String) : Bool := containsSub needle.toList hay.toList

/-- Whether any of the needles occurs in the haystack (models an alternation
regex of literals, e.g. `re.search(r"(nav|menu|...)", s)`). -/
def containsAny (hay : List Char) (needles : List String) : Bool :=
  needles.any fun n => containsSub n.toList hay

/-- Split on runs of separator characters, dropping empty pieces
(`re.split(r"[sep]+", s)` followed by filtering out empties); the
accumulator holds the current word reversed. -/
def splitRunsAux (isSep : Char → Bool) (cur : List Char) : List Char → List (List Char)
  | [] => if cur = [] then [] else [cur.reverse]
  | c :: rest =>
    if isSep c then
      if cur = [] then splitRunsAux isSep [] rest
      else cur.reverse :: splitRunsAux isSep [] rest
    else splitRunsAux isSep (c :: cur) rest

def splitRuns (isSep : Char → Bool) (l : List Char) : List (List Char) :=
  splitRunsAux isSep [] l

/-- Python `str.split()` (split on whitespace runs, dropping empty parts). -/
def splitWsC (l : List Char) : List (List Char) := splitRuns pyWs l

/-- Join strings with a separator (`sep.join(parts)`). -/
def joinSep (sep : String) : List String → String
  | [] => ""
  | [s] => s
  | s :: rest => s ++ sep ++ joinSep sep rest

/-- Python `str.startswith`. -/
def startsWithS (s pre : String) : Bool := isPrefixCh pre.toList s.toList

/-- Python truthiness-based `a or b` for strings. -/
def orStr (a b : String) : String := if a = "" then b else a

/-! ## The document model

BeautifulSoup parse trees are modelled as rose trees: an element node with
a tag name, an attribute list and children, or a text node.  The whole
document (`soup`) is an element with the synthetic tag `"[document]"`, so
that searches (`find_all`, `select`, `get_text`) — which in bs4 walk the
*descendants* of the object they are invoked on — walk exactly the
document's elements. -/

inductive Node where
  | text (s : String)
  | elem (tag : String) (attrs : List (String × String)) (children : List Node)

/-- `node.get(key)`: first value bound to an attribute key. -/
def getAttr (n : Node) (key : String) : Option String :=
  match n with
  | .text _ => none
  | .elem _ attrs _ =>
    match attrs.find? (fun pr => pr.1 = key) with
    | some pr => some pr.2
    | none => none

/-- `node["src"] = v` (bs4 attribute assignment): replaces the binding. -/
def setAttr (n : Node) (key val : String) : Node :=
  match n with
  | .text s => .text s
  | .elem t attrs cs =>
    .elem t ((attrs.filter (fun pr => pr.1 ≠ key)) ++ [(key, val)]) cs

/-- Tag name of an element (text nodes have none). -/
def tagOf : Node → Option String
  | .text _ => none
  | .elem t _ _ => some t

/-- `node.get("class", [])`: bs4 splits the class attribute on whitespace
into a list of class names. -/
def classList (n : Node) : List String :=
  match getAttr n "class" with
  | some s => (splitWsC s.toList).map String.mk
  | none => []

/-- `" ".join(node.get("class", []))`. -/
def joinedClasses (n : Node) : String := joinSep " " (classList n)

mutual
/-- Descendants of a node in document (preorder) order, the node itself
excluded — the order bs4's `find_all`/`select`/`get_text` traverse. -/
def descOf : Node → List Node
  | .text _ => []
  | .elem _ _ cs => descList cs

/-- Preorder flattening of a forest (each root followed by its subtree). -/
def descList : List Node → List Node
  | [] => []
  | c :: rest => c :: (descOf c ++ descList rest)
end

mutual
/-- Descendants paired with their ancestor chain (nearest ancestor first);
`anc` are the ancestors of the node itself. -/
def descWithAnc (n : Node) (anc : List Node) : List (Node × List Node) :=
  match n with
  | .text _ => []
  | .elem _ _ cs => descListWithAnc cs (n :: anc)

def descListWithAnc (ns : List Node) (anc : List Node) : List (Node × List Node) :=
  match ns with
  | [] => []
  | c :: rest => (c, anc) :: (descWithAnc c anc ++ descListWithAnc rest anc)
end

/-- The text-node strings of a subtree in document order. -/
def textPieces (n : Node) : List String :=
  (descOf n).filterMap fun d => match d with | .text s => some s | _ => none

/-- `node.get_text(sep, strip=True)`: strip every string, drop the empty
ones, join with the separator. -/
def getText (sep : String) (n : Node) : String :=
  joinSep sep (((textPieces n).map trimS).filter (fun s => s ≠ ""))

/-- Length (in characters) of the visible text — the scoring key
`len(x.get_text(" ", strip=True))` of the largest-block scan. -/
def textLen (n : Node) : Nat := (getText " " n).length

/-! ## CSS selector engine (the fragment soupsieve features the script uses)

The script's selectors are combinations of type selectors, `.class`,
`#id`, `[attr='value']`, descendant combinators (space) and selector
groups (comma).  A selector string is parsed into groups of compound
selectors; an unparsable group matches nothing (the script only ever
passes valid selectors). -/

structure SimpleSel where
  tagName : Option String
  ids : List String
  classes : List String
  attrConds : List (String × String)
deriving Repr

/-- CSS identifier characters (enough for the selectors in the script). -/
def isNameChar (c : Char) : Bool := c.isAlphanum || c = '-' || c = '_'

/-- Split a selector at top level (outside `[...]`) on a separator class,
dropping empty pieces.  Used with `','` for groups and whitespace for
descendant combinators. -/
def splitTopAux (isSep : Char → Bool) (depth : Nat) (cur : List Char) :
    List Char → List (List Char)
  | [] => if cur = [] then [] else [cur.reverse]
  | c :: rest =>
    if c = '[' then splitTopAux isSep (depth + 1) (c :: cur) rest
    else if c = ']' then splitTopAux isSep (depth - 1) (c :: cur) rest
    else if depth = 0 && isSep c then
      if cur = [] then splitTopAux isSep 0 [] rest
      else cur.reverse :: splitTopAux isSep 0 [] rest
    else splitTopAux isSep depth (c :: cur) rest

def splitTop (isSep : Char → Bool) (l : List Char) : List (List Char) :=
  splitTopAux isSep 0 [] l

/-- Longest identifier prefix and the remainder. -/
def takeName (cs : List Char) : List Char × List Char :=
  (cs.takeWhile isNameChar, cs.dropWhile isNameChar)

/-- Parse the `#id` / `.class` / `[attr='value']` items of a compound
selector (fuel bounds the input length, making the recursion structural). -/
def parseItems : Nat → SimpleSel → List Char → Option SimpleSel
  | _, s, [] => some s
  | 0, _, _ :: _ => none
  | fuel + 1, s, '#' :: rest =>
    let (nm, r2) := takeName rest
    if nm = [] then none
    else parseItems fuel { s with ids := s.ids ++ [String.mk nm] } r2
  | fuel + 1, s, '.' :: rest =>
    let (nm, r2) := takeName rest
    if nm = [] then none
    else parseItems fuel { s with classes := s.classes ++ [String.mk nm] } r2
  | fuel + 1, s, '[' :: rest =>
    let (key, r2) := takeName rest
    if key = [] then none
    else
      match r2 with
      | '=' :: r3 =>
        match r3 with
        | q :: r4 =>
          if q = '\'' || q = '"' then
            let v := r4.takeWhile (fun c => c ≠ q)
            match r4.dropWhile (fun c => c ≠ q) with
            | _ :: ']' :: r5 =>
              parseItems fuel { s with attrConds := s.attrConds ++ [(String.mk key, String.mk v)] } r5
            | _ => none
          else
            let v := (q :: r4).takeWhile (fun c => c ≠ ']')
            match (q :: r4).dropWhile (fun c => c ≠ ']') with
            | ']' :: r5 =>
              parseItems fuel { s with attrConds := s.attrConds ++ [(String.mk key, String.mk v)] } r5
            | _ => none
        | [] => none
      | _ => none
  | _ + 1, _, _ :: _ => none

/-- Parse one compound selector such as `div#artibody` or `a[rel='tag']`. -/
def parseCompound (cs : List Char) : Option SimpleSel :=
  let (nm, rest) := takeName cs
  let base : SimpleSel :=
    { tagName := if nm = [] then none else some (String.mk nm),
      ids := [], classes := [], attrConds := [] }
  parseItems rest.length base rest

/-- Parse a descendant chain (`span.time SG_txtc`): all compounds must parse. -/
def parseChain (cs : List Char) : Option (List SimpleSel) :=
  (splitTop pyWs cs).mapM parseCompound

/-- Parse a selector group list (`a[rel='tag'], .blog_tag a, .tag a`). -/
def parseGroups (sel : String) : List (List SimpleSel) :=
  (splitTop (fun c => c = ',') sel.toList).filterMap parseChain

/-- Whether an element satisfies one compound selector. -/
def matchesSimple (n : Node) (s : SimpleSel) : Bool :=
  match n with
  | .text _ => false
  | .elem t _ _ =>
    (match s.tagName with | some tn => tn = t | none => true) &&
    s.ids.all (fun i => getAttr n "id" = some i) &&
    s.classes.all (fun c => (classList n).contains c) &&
    s.attrConds.all (fun pr => getAttr n pr.1 = some pr.2)

/-- Match the remaining (target-nearest first) compounds of a descendant
chain against the ancestor list (nearest ancestor first): each compound
must match some ancestor, strictly outward. -/
def ancChainMatches : List SimpleSel → List Node → Bool
  | [], _ => true
  | _ :: _, [] => false
  | c :: rest, a :: anc =>
    (matchesSimple a c && ancChainMatches rest anc) || ancChainMatches (c :: rest) anc

/-- Whether a node (with its ancestor chain) matches a descendant chain. -/
def chainMatches (chain : List SimpleSel) (n : Node) (anc : List Node) : Bool :=
  match chain.reverse with
  | [] => false
  | c :: rest => matchesSimple n c && ancChainMatches rest anc

/-- `soup.select(sel)`: all matching descendants in document order. -/
def selectAll (root : Node) (sel : String) : List Node :=
  let groups := parseGroups sel
  ((descWithAnc root []).filter fun pr => groups.any fun g => chainMatches g pr.1 pr.2).map
    Prod.fst

/-- `soup.select_one(sel)`: first match in document order. -/
def selectOne (root : Node) (sel : String) : Option Node := (selectAll root sel).head?

/-! ## `find` / `find_all` variants used by the script -/

/-- `soup.find_all(tag)`. -/
def findAllTag (root : Node) (tag : String) : List Node :=
  (descOf root).filter fun n => tagOf n = some tag

/-- `soup.find(tag, attrs={key: val})` (exact attribute match). -/
def findTagAttrEq (root : Node) (tag key val : String) : Option Node :=
  ((descOf root).filter fun n =>
    tagOf n = some tag && getAttr n key = some val).head?

/-- `soup.find("meta", attrs={"property": prop}) or soup.find("meta",
attrs={"name": prop})` from `pick_text`'s `meta:` branch. -/
def findMeta (doc : Node) (prop : String) : Option Node :=
  match findTagAttrEq doc "meta" "property" prop with
  | some n => some n
  | none => findTagAttrEq doc "meta" "name" prop

/-- `soup.find("div", id=re.compile(needle, re.I))`: first `div` whose id
contains the (lower-case) needle case-insensitively. -/
def findDivIdSub (doc : Node) (needle : String) : Option Node :=
  ((descOf doc).filter fun n =>
    tagOf n = some "div" &&
      (match getAttr n "id" with
       | some i => containsSub needle.toList (lowerC i.toList)
       | none => false)).head?

/-- `soup.find("div", class_=re.compile(r"(a|b|...)", re.I))`: first `div`
one of whose classes contains one of the needles case-insensitively. -/
def findDivClassSub (doc : Node) (needles : List String) : Option Node :=
  ((descOf doc).filter fun n =>
    tagOf n = some "div" &&
      (classList n).any fun c => containsAny (lowerC c.toList) needles).head?

/-- `node.find(class_=re.compile(r"(blog_tag|blog_class)", re.I))` as a
Boolean: some descendant has a class containing one of the needles. -/
def hasDescClassSub (n : Node) (needles : List String) : Bool :=
  (descOf n).any fun d => (classList d).any fun c => containsAny (lowerC c.toList) needles

/-! ## `pick_text` and `pick_html` (selector-chain walkers) -/

/-- `pick_text(soup, selectors)`: first non-empty extraction along the
chain; `meta:`-prefixed entries read the `content` attribute of the
matching meta element. -/
def pick_text (doc : Node) : List String → String
  | [] => ""
  | sel :: rest =>
    if sel = "" then pick_text doc rest
    else if startsWithS sel "meta:" then
      match findMeta doc (String.mk (sel.toList.drop 5)) with
      | some node =>
        match getAttr node "content" with
        | some c => if c ≠ "" then trimS c else pick_text doc rest
        | none => pick_text doc rest
      | none => pick_text doc rest
    else
      match selectOne doc sel with
      | some node =>
        if getText " " node ≠ "" then getText " " node else pick_text doc rest
      | none => pick_text doc rest

/-- `pick_html(soup, selectors)`: first selector with any match wins. -/
def pick_html (doc : Node) : List String → Option Node
  | [] => none
  | sel :: rest =>
    if sel = "" then pick_html doc rest
    else
      match selectOne doc sel with
      | some n => some n
      | none => pick_html doc rest

/-! ## Regex scanners

The script's textual fallbacks are fixed regular expressions; each is
translated to a hand-rolled scanner with Python `re.search` semantics
(leftmost match, greedy quantifiers with the backtracking the specific
pattern allows). -/

/-- Exactly `n` digits (`\d{n}`): the matched digits and the remainder. -/
def takeDigitsExact : Nat → List Char → Option (List Char × List Char)
  | 0, cs => some ([], cs)
  | _ + 1, [] => none
  | n + 1, c :: rest =>
    if c.isDigit then
      match takeDigitsExact n rest with
      | some (ds, r) => some (c :: ds, r)
      | none => none
    else none

/-- A date separator: dash, slash or dot. -/
def isDateSep (c : Char) : Bool := c = '-' || c = '/' || c = '.'

/-- `\d{1,2}` followed by a required separator character, greedy with
backtracking: two digits + separator, else one digit + separator. -/
def takeD12Sep (isSep : Char → Bool) : List Char → Option (List Char × List Char)
  | a :: b :: c :: rest =>
    if a.isDigit && b.isDigit && isSep c then some ([a, b, c], rest)
    else if a.isDigit && isSep b then some ([a, b], c :: rest)
    else none
  | [a, b] => if a.isDigit && isSep b then some ([a, b], []) else none
  | _ => none

/-- `\d{1,2}` greedy (no lookahead constraint). -/
def takeD12 : List Char → Option (List Char × List Char)
  | a :: b :: rest =>
    if a.isDigit && b.isDigit then some ([a, b], rest)
    else if a.isDigit then some ([a], b :: rest)
    else none
  | [a] => if a.isDigit then some ([a], []) else none
  | [] => none

/-- The date-core pattern (4-digit year, separator, 1-2 digit month,
separator, 1-2 digit day) anchored at the head of the input. -/
def matchDateCoreAt (cs : List Char) : Option (List Char × List Char) :=
  match takeDigitsExact 4 cs with
  | some (y, s :: r1) =>
    if isDateSep s then
      match takeD12Sep isDateSep r1 with
      | some (mo, r2) =>
        match takeD12 r2 with
        | some (d, r3) => some (y ++ s :: mo ++ d, r3)
        | none => none
      | none => none
    else none
  | _ => none

/-- The optional time-of-day suffix `(?:\s+\d{1,2}:\d{2}(?::\d{2})?)?`:
returns the consumed characters (empty when the group does not match). -/
def matchTimeOpt (cs : List Char) : List Char × List Char :=
  let ws := cs.takeWhile pyWs
  if ws = [] then ([], cs)
  else
    let r1 := cs.dropWhile pyWs
    match takeD12Sep (fun c => c = ':') r1 with
    | none => ([], cs)
    | some (hc, r2) =>
      match takeDigitsExact 2 r2 with
      | none => ([], cs)
      | some (mm, r3) =>
        match r3 with
        | ':' :: r4 =>
          match takeDigitsExact 2 r4 with
          | some (ss, r5) => (ws ++ hc ++ mm ++ ':' :: ss, r5)
          | none => (ws ++ hc ++ mm, r3)
        | _ => (ws ++ hc ++ mm, r3)

/-- The date-shaped-substring search of `guess_time` (date core plus
optional time of day): the leftmost match (`group(0)`). -/
def scanDateTime : List Char → Option String
  | [] => none
  | c :: rest =>
    match matchDateCoreAt (c :: rest) with
    | some (core, r) => some (String.mk (core ++ (matchTimeOpt r).1))
    | none => scanDateTime rest

/-- The date-core search of `main`'s filename derivation: the leftmost
match (`group(0)`). -/
def scanDateOnly : List Char → Option String
  | [] => none
  | c :: rest =>
    match matchDateCoreAt (c :: rest) with
    | some (core, _) => some (String.mk core)
    | none => scanDateOnly rest

/-- `re.search(r"分类[:：]\s*([^\s]+)", raw)` from `guess_category`:
`group(1)` of the leftmost match. -/
def scanCategory : List Char → Option String
  | [] => none
  | c :: rest =>
    (match c :: rest with
      | c1 :: c2 :: c3 :: r =>
        if c1 = '分' && c2 = '类' && (c3 = ':' || c3 = '：') then
          let tok := (r.dropWhile pyWs).takeWhile fun x => !pyWs x
          if tok = [] then scanCategory rest else some (String.mk tok)
        else scanCategory rest
      | _ => scanCategory rest)

/-- `re.search(r"标签[:：]\s*([^\n]+)", raw)` from `guess_tags`:
`group(1)` of the leftmost match. -/
def scanTagsLabel : List Char → Option String
  | [] => none
  | c :: rest =>
    (match c :: rest with
      | c1 :: c2 :: c3 :: r =>
        if c1 = '标' && c2 = '签' && (c3 = ':' || c3 = '：') then
          let tok := (r.dropWhile pyWs).takeWhile fun x => x ≠ '\n'
          if tok = [] then scanTagsLabel rest else some (String.mk tok)
        else scanTagsLabel rest
      | _ => scanTagsLabel rest)

/-- Python `str.replace(needle, repl)` (all non-overlapping occurrences,
left to right); the fuel is the input length, making recursion structural. -/
def replaceSubAux (needle repl : List Char) : Nat → List Char → List Char
  | _, [] => []
  | 0, l => l
  | fuel + 1, c :: rest =>
    if needle ≠ [] && isPrefixCh needle (c :: rest) then
      repl ++ replaceSubAux needle repl fuel ((c :: rest).drop needle.length)
    else c :: replaceSubAux needle repl fuel rest

def replaceS (s needle repl : String) : String :=
  String.mk (replaceSubAux needle.toList repl.toList s.toList.length s.toList)

/-! ## Field heuristics (`guess_title`, `guess_time`, `guess_category`,
`guess_tags`) -/

/-- `guess_title(soup)`: fixed fallback chain, then strip the platform
branding suffix. -/
def guess_title (doc : Node) : String :=
  let title := pick_text doc ["h2.titName", "h1", "meta:og:title", "meta:title", "title"]
  if title ≠ "" then trimS (replaceS title "- 新浪博客" "") else ""

/-- `guess_time(soup)`: fixed chain, then a date-shaped regex over the
page's visible text. -/
def guess_time (doc : Node) : String :=
  let text := pick_text doc
    ["span.time", "span.time SG_txtc", "meta:article:published_time", "meta:og:pubdate"]
  let text2 :=
    if text = "" then
      match scanDateTime (getText "\n" doc).toList with
      | some m => m
      | none => text
    else text
  trimS text2

/-- `guess_category(soup)`: fixed chain, then the labelled `分类:` scan. -/
def guess_category (doc : Node) : String :=
  let category := pick_text doc ["a[rel='category tag']", "a.blogCategory", "span.category"]
  if category ≠ "" then category
  else
    match scanCategory (getText " " doc).toList with
    | some g => g
    | none => ""

/-- Append a tag if non-empty and not already present (`if text and text
not in tags: tags.append(text)`). -/
def dedupAppend (acc : List String) (t : String) : List String :=
  if t ≠ "" && !(acc.contains t) then acc ++ [t] else acc

/-- Characters `[,\s]` of the tag-splitting regex. -/
def isCommaWs (c : Char) : Bool := c = ',' || pyWs c

/-- `guess_tags(soup)`: known tag-link elements, then the labelled `标签:`
scan with a 120-character sanity bound and `[,\s]+` splitting. -/
def guess_tags (doc : Node) : List String :=
  let tags := (selectAll doc "a[rel='tag'], .blog_tag a, .tag a").foldl
    (fun acc a => dedupAppend acc (getText "" a)) []
  if tags ≠ [] then tags
  else
    match scanTagsLabel (getText " " doc).toList with
    | some seg =>
      let seg2 := trimS seg
      if seg2.length ≤ 120 then (splitRuns isCommaWs seg2.toList).map String.mk
      else []
    | none => []

/-! ## Tag-block / noise classification and content-node search -/

/-- `is_tag_block(node)`: the container's own class contains the platform
tag-list marker, or some descendant's class matches `blog_tag|blog_class`,
or its visible text mentions both 标签 and 分类 and is short. -/
def is_tag_block (node : Node) : Bool :=
  if containsSubS (joinedClasses node) "articalTag" then true
  else if hasDescClassSub node ["blog_tag", "blog_class"] then true
  else
    let text := getText " " node
    containsSubS text "标签" && containsSubS text "分类" && text.length < 300

/-- The id-needles of `is_noise_node`'s regex. -/
def noiseNeedles : List String :=
  ["nav", "menu", "footer", "foot", "side", "comment", "share", "recommend"]

/-- `is_noise_node(node)`: id or class (lower-cased) matches the noise
alternation; the class check additionally includes `articaltag`. -/
def is_noise_node (node : Node) : Bool :=
  if containsAny (lowerC ((getAttr node "id").getD "").toList) noiseNeedles then true
  else containsAny (lowerC (joinedClasses node).toList) (noiseNeedles ++ ["articaltag"])

/-- The fixed content-container selector list of `guess_content_node`. -/
def fixedContentSelectors : List String :=
  ["div#sina_keyword_ad_area2", "div.articalContent", "div#articlebody", "div#artibody"]

/-- The `for sel in [...]` loop: first fixed selector whose match is not a
tag block. -/
def tryFixedSelectors (doc : Node) : List String → Option Node
  | [] => none
  | sel :: rest =>
    match selectOne doc sel with
    | some node =>
      if is_tag_block node = false then some node else tryFixedSelectors doc rest
    | none => tryFixedSelectors doc rest

/-- First element of the list attaining the maximal text length — the
result of `candidates.sort(key=len(get_text), reverse=True)` (a stable
sort) followed by `candidates[0]`. -/
def pickLargest : List Node → Option Node
  | [] => none
  | c :: rest =>
    match pickLargest rest with
    | none => some c
    | some b => if textLen b > textLen c then some b else some c

/-- The last-resort scan: all `div`s, noise nodes discarded, largest
visible-text block wins. -/
def lastResortScan (doc : Node) : Option Node :=
  let candidates := findAllTag doc "div"
  if candidates.isEmpty then none
  else
    let cands := candidates.filter fun c => is_noise_node c = false
    if cands.isEmpty then none else pickLargest cands

/-- `guess_content_node` after the id-pattern step: the generic
content-class `find`, then the last-resort scan. -/
def contentAfterId (doc : Node) : Option Node :=
  match findDivClassSub doc ["articalcontent", "article", "post", "content"] with
  | some node => if is_tag_block node = false then some node else lastResortScan doc
  | none => lastResortScan doc

/-- `guess_content_node(soup, selectors)`: configured chain, fixed
selector list (skipping tag blocks), id-pattern `find`, class-pattern
`find`, then the largest non-noise `div`. -/
def guess_content_node (doc : Node) (selectors : List String) : Option Node :=
  match pick_html doc selectors with
  | some node => some node
  | none =>
    match tryFixedSelectors doc fixedContentSelectors with
    | some node => some node
    | none =>
      match findDivIdSub doc "sina_keyword_ad_area" with
      | some node => if is_tag_block node = false then some node else contentAfterId doc
      | none => contentAfterId doc

/-! ## Content sanitizer (`clean_content`) -/

/-- Tags removed unconditionally by the first pass of `clean_content`. -/
def scriptTags : List String := ["script", "style", "noscript", "iframe"]

/-- Whether a node is a script/style/noscript/iframe element. -/
def isScriptLike (n : Node) : Bool :=
  match tagOf n with
  | some t => scriptTags.contains t
  | none => false

/-- The selector string of `clean_content`'s second pass. -/
def cleanSelStr : String :=
  ".articalTag, .blog_tag, .blog_class, .share, .shareBtn, #share, .comment, #comment"

/-- Whether a node (with its ancestors) matches `clean_content`'s
selector group. -/
def matchesCleanSel (anc : List Node) (n : Node) : Bool :=
  (parseGroups cleanSelStr).any fun g => chainMatches g n anc

mutual
/-- Remove every descendant subtree whose root satisfies `p` (given its
ancestor chain) — the `for tag in node.find_all(...)/node.select(...):
tag.decompose()` pattern: matches are collected against the tree at the
start of the pass, and removing a subtree also removes any nested
matches, which top-down pruning reproduces.  The node itself is kept
(bs4 searches descendants only). -/
def pruneWith (p : List Node → Node → Bool) (anc : List Node) : Node → Node
  | .text s => .text s
  | .elem t a cs => .elem t a (pruneListWith p (Node.elem t a cs :: anc) cs)

def pruneListWith (p : List Node → Node → Bool) (anc : List Node) :
    List Node → List Node
  | [] => []
  | c :: rest =>
    if p anc c then pruneListWith p anc rest
    else pruneWith p anc c :: pruneListWith p anc rest
end

/-- The script-tag pass predicate (ancestor-independent). -/
def scriptPred : List Node → Node → Bool := fun _ n => isScriptLike n

/-- `clean_content(node)`: drop script/style/noscript/iframe subtrees,
then drop tag-list/category/share/comment subtrees; returns the node. -/
def clean_content (n : Node) : Node :=
  pruneWith matchesCleanSel [] (pruneWith scriptPred [] n)

/-! ## Serialization (`str(node)`, bs4's minimal formatter) -/

/-- Escape `&`, `<`, `>` in text. -/
def escapeHtml (s : String) : String :=
  String.join (s.toList.map fun c =>
    if c = '&' then "&amp;"
    else if c = '<' then "&lt;"
    else if c = '>' then "&gt;"
    else String.mk [c])

/-- Render an attribute list as ` k="v"` pairs. -/
def renderAttrs (attrs : List (String × String)) : String :=
  String.join (attrs.map fun pr => " " ++ pr.1 ++ "=\x22" ++ escapeHtml pr.2 ++ "\x22")

mutual
/-- `str(node)`: serialized markup of the subtree. -/
def renderNode : Node → String
  | .text s => escapeHtml s
  | .elem t a cs => "<" ++ t ++ renderAttrs a ++ ">" ++ renderList cs ++ "</" ++ t ++ ">"

def renderList : List Node → String
  | [] => ""
  | c :: rest => renderNode c ++ renderList rest
end

/-! ## `parse_article` -/

/-- The per-field selector chains of `config["selectors"]` (each key
defaults to the empty chain, `selectors.get(key, [])`). -/
structure Selectors where
  title : List String := []
  time : List String := []
  category : List String := []
  tags : List String := []
  content : List String := []
  list_link : String := ""

/-- The record `parse_article` returns. -/
structure Article where
  title : String
  published_at : String
  category : String
  tags : List String
  url : String
  content_html : String

/-- The configured-tags branch of `parse_article`: collect the text of
every element matched by every chain entry, deduplicated, in order. -/
def collectTags (doc : Node) (sels : List String) : List String :=
  sels.foldl (fun acc sel =>
    (selectAll doc sel).foldl (fun a2 el => dedupAppend a2 (getText "" el)) acc) []

/-- `parse_article(html_text, url, config)`: every field from its chain
with its heuristic fallback; the content node is sanitized and
serialized, or the empty string when none is found. -/
def parse_article (doc : Node) (url : String) (sels : Selectors) : Article :=
  { title := orStr (pick_text doc sels.title) (guess_title doc)
    published_at := orStr (pick_text doc sels.time) (guess_time doc)
    category := orStr (pick_text doc sels.category) (guess_category doc)
    tags := if sels.tags ≠ [] then collectTags doc sels.tags else guess_tags doc
    url := url
    content_html :=
      match guess_content_node doc sels.content with
      | some node => renderNode (clean_content node)
      | none => "" }

/-! ## Filename derivation (`safe_filename` and `main`'s date stamping) -/

/-- The reserved filesystem characters replaced by `safe_filename`. -/
def reservedFsChar (c : Char) : Bool :=
  c = '\\' || c = '/' || c = ':' || c = '*' || c = '?' || c = '"' || c = '<' ||
  c = '>' || c = '|'

/-- Collapse whitespace runs to single spaces (the whitespace-collapsing
substitution of `safe_filename`). -/
def collapseWsAux (prevWs : Bool) : List Char → List Char
  | [] => []
  | c :: rest =>
    if pyWs c then
      (if prevWs then [] else [' ']) ++ collapseWsAux true rest
    else c :: collapseWsAux false rest

def collapseWs (l : List Char) : List Char := collapseWsAux false l

/-- `safe_filename(name, fallback)`: strip (falling back when empty),
replace reserved characters with underscores, collapse whitespace, strip,
and fall back again if everything vanished. -/
def safe_filename (name fallback : String) : String :=
  let n1 := orStr (trimS name) fallback
  let n2 := String.mk (n1.toList.map fun c => if reservedFsChar c then '_' else c)
  let n3 := trimS (String.mk (collapseWs n2.toList))
  if n3 = "" then fallback else n3

/-- Whether a year is a leap year (the Gregorian rule `datetime` uses). -/
def isLeapYear (y : Nat) : Bool := y % 4 = 0 && (y % 100 ≠ 0 || y % 400 = 0)

/-- Days in a month (`datetime`'s calendar validation). -/
def daysInMonth (y m : Nat) : Nat :=
  if m = 2 then (if isLeapYear y then 29 else 28)
  else if m = 4 || m = 6 || m = 9 || m = 11 then 30
  else 31

/-- Digits to a number. -/
def natOfDigits (l : List Char) : Nat := l.foldl (fun a c => a * 10 + (c.toNat - 48)) 0

/-- `datetime.strptime(s, "%Y-%m-%d")`: 4-digit year, dash, 1-2 digit
month, dash, 1-2 digit day, with full calendar validation (`ValueError`
becomes `none`). -/
def strptimeYmd (s : String) : Option (Nat × Nat × Nat) :=
  match takeDigitsExact 4 s.toList with
  | some (yd, '-' :: r1) =>
    match takeD12Sep (fun c => c = '-') r1 with
    | some (md, r2) =>
      let dd := r2.takeWhile Char.isDigit
      if dd ≠ [] && dd.length ≤ 2 && r2.dropWhile Char.isDigit = [] then
        let y := natOfDigits yd
        let m := natOfDigits (md.takeWhile Char.isDigit)
        let d := natOfDigits dd
        if 1 ≤ y && 1 ≤ m && m ≤ 12 && 1 ≤ d && d ≤ daysInMonth y m then
          some (y, m, d)
        else none
      else none
    | none => none
  | _ => none

/-- Zero-pad to two digits (`%m`, `%d` of `strftime`). -/
def pad2 (n : Nat) : String := if n < 10 then "0" ++ toString n else toString n

/-- `f"{idx:04d}"`. -/
def pad4 (n : Nat) : String :=
  let s := toString n
  if s.length < 4 then String.mk (List.replicate (4 - s.length) '0') ++ s else s

/-- `date.strftime("%Y%m%d")` (glibc `%Y` does not pad, and the year here
always comes from four matched digits). -/
def formatYmd (y m d : Nat) : String := toString y ++ pad2 m ++ pad2 d

/-- The per-article filename derivation of `main` (date-part extraction,
separator normalization, parse-and-format, `safe_filename`, positional
fallback `post_{idx:04d}` and optional date prefix). -/
def derive_base_name (published_at title : String) (idx : Nat) : String :=
  let date_part :=
    if published_at ≠ "" then
      match scanDateOnly published_at.toList with
      | some m =>
        let dp := String.mk (m.toList.map fun c => if c = '/' || c = '.' then '-' else c)
        match strptimeYmd dp with
        | some (y, mo, d) => formatYmd y mo d
        | none => ""
      | none => ""
    else ""
  let base := safe_filename title ("post_" ++ pad4 idx)
  if date_part ≠ "" then date_part ++ "_" ++ base else base

/-! ## SHA-1 (`hashlib.sha1(url.encode("utf-8")).hexdigest()`)

A from-scratch SHA-1 over byte lists, with 32-bit words represented as
`Nat` reduced modulo `2^32`. -/

/-- UTF-8 encoding of one character. -/
def utf8Char (c : Char) : List Nat :=
  let n := c.toNat
  if n < 0x80 then [n]
  else if n < 0x800 then [0xC0 ||| (n >>> 6), 0x80 ||| (n &&& 0x3F)]
  else if n < 0x10000 then
    [0xE0 ||| (n >>> 12), 0x80 ||| ((n >>> 6) &&& 0x3F), 0x80 ||| (n &&& 0x3F)]
  else
    [0xF0 ||| (n >>> 18), 0x80 ||| ((n >>> 12) &&& 0x3F),
     0x80 ||| ((n >>> 6) &&& 0x3F), 0x80 ||| (n &&& 0x3F)]

/-- `s.encode("utf-8")` as a byte list. -/
def utf8Bytes (s : String) : List Nat := (s.toList.map utf8Char).flatten

/-- Reduce modulo `2^32`. -/
def w32 (n : Nat) : Nat := n % 4294967296

/-- 32-bit left rotation. -/
def rotl32 (n k : Nat) : Nat := w32 ((n <<< k) ||| (n >>> (32 - k)))

/-- 32-bit complement. -/
def not32 (n : Nat) : Nat := 4294967295 - n

/-- Big-endian byte expansion to a fixed width. -/
def toBytesBE : Nat → Nat → List Nat
  | 0, _ => []
  | k + 1, n => toBytesBE k (n / 256) ++ [n % 256]

/-- SHA-1 message padding: `0x80`, zeros to 56 mod 64, 64-bit bit length. -/
def sha1pad (msg : List Nat) : List Nat :=
  let padLen := (55 + 64 - msg.length % 64) % 64
  msg ++ [0x80] ++ List.replicate padLen 0 ++ toBytesBE 8 (msg.length * 8)

/-- Big-endian 32-bit words of a chunk. -/
def bytesToWords : List Nat → List Nat
  | b1 :: b2 :: b3 :: b4 :: rest =>
    (((b1 * 256 + b2) * 256 + b3) * 256 + b4) :: bytesToWords rest
  | _ => []

/-- Extend 16 words to the 80-word schedule. -/
def extendW (w : List Nat) : List Nat :=
  (List.range 64).foldl
    (fun acc _ =>
      acc ++ [rotl32
        ((acc.getD (acc.length - 3) 0) ^^^ (acc.getD (acc.length - 8) 0) ^^^
         (acc.getD (acc.length - 14) 0) ^^^ (acc.getD (acc.length - 16) 0)) 1])
    w

structure Sha1St where
  a : Nat
  b : Nat
  c : Nat
  d : Nat
  e : Nat

/-- One of the 80 SHA-1 rounds. -/
def sha1round (w : List Nat) (st : Sha1St) (i : Nat) : Sha1St :=
  let f :=
    if i < 20 then (st.b &&& st.c) ||| (not32 st.b &&& st.d)
    else if i < 40 then st.b ^^^ st.c ^^^ st.d
    else if i < 60 then (st.b &&& st.c) ||| (st.b &&& st.d) ||| (st.c &&& st.d)
    else st.b ^^^ st.c ^^^ st.d
  let k :=
    if i < 20 then 0x5A827999
    else if i < 40 then 0x6ED9EBA1
    else if i < 60 then 0x8F1BBCDC
    else 0xCA62C1D6
  let temp := w32 (rotl32 st.a 5 + f + st.e + k + w.getD i 0)
  { a := temp, b := st.a, c := rotl32 st.b 30, d := st.c, e := st.d }

/-- Process one 64-byte chunk. -/
def sha1chunk (h : Sha1St) (chunk : List Nat) : Sha1St :=
  let w := extendW (bytesToWords chunk)
  let r := (List.range 80).foldl (sha1round w) h
  { a := w32 (h.a + r.a), b := w32 (h.b + r.b), c := w32 (h.c + r.c),
    d := w32 (h.d + r.d), e := w32 (h.e + r.e) }

/-- Fold over all 64-byte chunks (fuel keeps the recursion structural). -/
def sha1chunks : Nat → Sha1St → List Nat → Sha1St
  | 0, h, _ => h
  | _ + 1, h, [] => h
  | fuel + 1, h, msg => sha1chunks fuel (sha1chunk h (msg.take 64)) (msg.drop 64)

/-- One lower-case hex digit. -/
def hexDigit (n : Nat) : Char :=
  if n < 10 then Char.ofNat (48 + n) else Char.ofNat (87 + n)

/-- Eight hex digits of a 32-bit word. -/
def toHex8 (n : Nat) : List Char :=
  (List.range 8).map fun i => hexDigit ((n >>> ((7 - i) * 4)) &&& 15)

/-- `hashlib.sha1(s.encode("utf-8")).hexdigest()`. -/
def sha1hex (s : String) : String :=
  let msg := sha1pad (utf8Bytes s)
  let h := sha1chunks msg.length
    { a := 0x67452301, b := 0xEFCDAB89, c := 0x98BADCFE, d := 0x10325476, e := 0xC3D2E1F0 }
    msg
  String.mk (toHex8 h.a ++ toHex8 h.b ++ toHex8 h.c ++ toHex8 h.d ++ toHex8 h.e)

/-! ## Image localizer (`download_images`) -/

/-- Drop everything up to and including the first occurrence of a needle. -/
def afterSub (needle : List Char) : List Char → Option (List Char)
  | [] => if needle = [] then some [] else none
  | c :: rest =>
    if isPrefixCh needle (c :: rest) then some ((c :: rest).drop needle.length)
    else afterSub needle rest

/-- `urlparse(url).path` for the absolute URLs the localizer handles:
strip the fragment and query, then the scheme and network location. -/
def urlPathOf (url : String) : String :=
  let l := (url.toList.takeWhile fun c => c ≠ '#').takeWhile fun c => c ≠ '?'
  match afterSub "://".toList l with
  | some r => String.mk (r.dropWhile fun c => c ≠ '/')
  | none => String.mk l

/-- The extension part within a basename whose leading dots were removed. -/
def extFrom (core : List Char) : List Char :=
  if core.any (fun c => c = '.') then
    '.' :: (core.reverse.takeWhile fun c => c ≠ '.').reverse
  else []

/-- `os.path.splitext(path)[1]`: extension of the last path component
(leading dots of the basename never start an extension). -/
def splitextOf (path : String) : String :=
  let base := (path.toList.reverse.takeWhile fun c => c ≠ '/').reverse
  String.mk (extFrom (base.dropWhile fun c => c = '.'))

/-- The local filename `download_images` derives for an absolute image
URL: 12 hex digits of the URL's SHA-1 plus the URL-path extension,
`.jpg` when that is absent or longer than 5 characters. -/
def image_filename (full_url : String) : String :=
  let fh := String.mk ((sha1hex full_url).toList.take 12)
  let ext := splitextOf (urlPathOf full_url)
  let ext2 := if ext = "" || ext.length > 5 then ".jpg" else ext
  fh ++ ext2

/-- `img.get("src") or img.get("data-src") or img.get("data-original")
or ""` (Python truthiness: empty strings fall through). -/
def firstTruthy : List (Option String) → String
  | [] => ""
  | some s :: rest => if s ≠ "" then s else firstTruthy rest
  | none :: rest => firstTruthy rest

/-- The image element's resolved (stripped) source attribute. -/
def resolvedSrc (img : Node) : String :=
  trimS (firstTruthy [getAttr img "src", getAttr img "data-src", getAttr img "data-original"])

/-- Dictionary lookup in the per-pass cache. -/
def lookupCache : List (String × String) → String → Option String
  | [], _ => none
  | (k, v) :: rest, u => if k = u then some v else lookupCache rest u

/-- The localizer's effect state: the per-pass URL cache, the set of
files existing in the `images` directory, and the log of network
fetches attempted (`session.get` calls). -/
structure DLState where
  cache : List (String × String)
  files : List String
  fetched : List String

/-- One iteration of `download_images`' per-image loop.  `uj` is
`urljoin`, `fOk url` tells whether fetching `url` succeeds (a `False`
models `requests.RequestException`). -/
def processImg (uj : String → String → String) (fOk : String → Bool)
    (article_url : String) (st : DLState) (img : Node) : Node × DLState :=
  let src := resolvedSrc img
  if src = "" then (img, st)
  else
    let full_url := uj article_url src
    match lookupCache st.cache full_url with
    | some p => (setAttr img "src" p, st)
    | none =>
      let filename := image_filename full_url
      let rel := "images/" ++ filename
      if st.files.contains filename then
        (setAttr img "src" rel, { st with cache := st.cache ++ [(full_url, rel)] })
      else if fOk full_url then
        (setAttr img "src" rel,
          { cache := st.cache ++ [(full_url, rel)],
            files := st.files ++ [filename],
            fetched := st.fetched ++ [full_url] })
      else
        (img, { st with fetched := st.fetched ++ [full_url] })

/-- `download_images`' loop over `soup.find_all("img")`: each image
processed in order, threading the state. -/
def download_images (uj : String → String → String) (fOk : String → Bool)
    (article_url : String) : List Node → DLState → List Node × DLState
  | [], st => ([], st)
  | img :: rest, st =>
    let pr := processImg uj fOk article_url st img
    let pr2 := download_images uj fOk article_url rest pr.2
    (pr.1 :: pr2.1, pr2.2)

/-! ## Encoding resolver (`normalize_encoding`) -/

/-- `bytes.decode("ascii", errors="ignore")`. -/
def asciiDecodeIgnore (bytes : List Nat) : List Char :=
  (bytes.filter fun b => b < 128).map Char.ofNat

/-- Case-insensitive literal matching at the head of the input. -/
def dropLitCI (lit : List Char) : List Char → Option (List Char)
  | cs =>
    match lit, cs with
    | [], _ => some cs
    | _ :: _, [] => none
    | a :: as_, b :: bs =>
      if a.toLower = b.toLower then dropLitCI as_ bs else none

/-- Characters of the charset-name capture group. -/
def isCharsetNameChar (c : Char) : Bool := c.isAlphanum || c = '_' || c = '-'

/-- The charset regex anchored at the head: `charset=` case-insensitively,
an optional quote, then at least one name character (the capture). -/
def matchCharsetAt (cs : List Char) : Option String :=
  match dropLitCI "charset=".toList cs with
  | none => none
  | some r1 =>
    let r2 :=
      match r1 with
      | q :: t => if q = '\'' || q = '"' then t else r1
      | [] => r1
    let nm := r2.takeWhile isCharsetNameChar
    if nm = [] then none else some (String.mk nm)

/-- The case-insensitive `charset=` regex search (leftmost match's group). -/
def scanCharset : List Char → Option String
  | [] => none
  | c :: rest =>
    match matchCharsetAt (c :: rest) with
    | some e => some e
    | none => scanCharset rest

/-- The fallback chain `normalize_encoding` runs when a declared encoding
is not kept (the body of the function past the early return): the
`charset=` scan over the head window, the meta-tag sniffer
(`get_encodings_from_content`, an external library helper passed in as a
function), the statistical detector (`response.apparent_encoding`), and
the fixed default `"utf-8"`. -/
def encodingFallback (content : List Nat) (sniff : String → List String)
    (apparent : Option String) : String :=
  match scanCharset (asciiDecodeIgnore (content.take 4096)) with
  | some enc => enc
  | none =>
    match sniff (String.mk (asciiDecodeIgnore (content.take 4096))) with
    | e :: _ => e
    | [] =>
      match apparent with
      | some a => if a ≠ "" then a else "utf-8"
      | none => "utf-8"

/-- `normalize_encoding(response)`: keep a truthy declared encoding other
than the `iso-8859-1` placeholder; otherwise run the fallback chain over
the first 4096 bytes decoded permissively and the full content.  Returns
the single encoding assigned to the response. -/
def normalize_encoding (declared : Option String) (content : List Nat)
    (sniff : String → List String) (apparent : Option String) : String :=
  if (match declared with
      | some e => e ≠ "" && lowerS e ≠ "iso-8859-1"
      | none => false)
  then declared.getD ""
  else encodingFallback content sniff apparent

/-! ## Link discovery and the listing-accumulation loop -/

/-- The canonical article path-segment literal. -/
def blogUrlLit : List Char := "blog.sina.com.cn/s/blog_".toList

/-- `[0-9a-z]`. -/
def isLowerAlnum (c : Char) : Bool := c.isDigit || ('a' ≤ c && c ≤ 'z')

/-- Exact literal matching at the head of the input. -/
def dropLit (lit : List Char) : List Char → Option (List Char)
  | cs =>
    match lit, cs with
    | [], _ => some cs
    | _ :: _, [] => none
    | a :: as_, b :: bs => if a = b then dropLit as_ bs else none

/-- After the literal: at least one `[0-9a-z]` character followed by
`.html` (with the backtracking the regex engine performs). -/
def blogTailMatch : List Char → Bool
  | [] => false
  | c :: rest =>
    isLowerAlnum c && (isPrefixCh ".html".toList rest || blogTailMatch rest)

/-- The structural article-URL regex anchored at the head. -/
def matchBlogRegexAt (cs : List Char) : Bool :=
  match dropLit blogUrlLit cs with
  | some r => blogTailMatch r
  | none => false

/-- `re.search` of the structural article-URL regex. -/
def searchBlogRegex : List Char → Bool
  | [] => false
  | c :: rest => matchBlogRegexAt (c :: rest) || searchBlogRegex rest

/-- `is_article_url(url, regex_pattern)`: a configured pattern decides
alone; otherwise the fixed substring check, then the structural regex.
A configured pattern is abstract (`re.search` of an arbitrary regex). -/
def is_article_url (pat : Option (String → Bool)) (url : String) : Bool :=
  match pat with
  | some f => f url
  | none =>
    if containsSub blogUrlLit url.toList then true
    else searchBlogRegex url.toList

/-- `links.add(full)` on the list-as-set (insertion order kept). -/
def setAdd (s : List String) (x : String) : List String :=
  if s.contains x then s else s ++ [x]

/-- `extract_article_links(list_html, base_url, config)`: candidate
anchors from the configured selector (else every `a[href]`), resolved
against the base URL (`uj` is `urljoin`), classified by
`is_article_url`, and collected into a set. -/
def extract_article_links (doc : Node) (base_url : String) (list_link : String)
    (pat : Option (String → Bool)) (uj : String → String → String) : List String :=
  let anchors :=
    if list_link ≠ "" then selectAll doc list_link
    else (descOf doc).filter fun n => tagOf n = some "a" && (getAttr n "href").isSome
  anchors.foldl
    (fun links a =>
      let href := trimS ((getAttr a "href").getD "")
      if href = "" then links
      else
        let full := uj base_url href
        if is_article_url pat full then setAdd links full else links)
    []

/-- The listing-collection loop of `main`: per fetched page, keep the
links not yet seen; stop at the first page contributing nothing new;
otherwise add them to the seen-set and the ordered accumulator. -/
def collectLinks (seen acc : List String) : List (List String) → List String
  | [] => acc
  | page :: rest =>
    let new := page.filter fun l => !(seen.contains l)
    if new = [] then acc
    else collectLinks (seen ++ new) (acc ++ new) rest

/-! # Claims -/

/-- C8: `derive_base_name` is a pure function of the published-at string,
the title and the positional index; published_at `"2014-03-02 10:00"` with
title `"My Trip"` derives `"20140302_My Trip"`, while the unparsable
`"未知"` with an empty title at index 7 derives `"post_0007"` with no
date prefix. -/
theorem derive_base_name_examples :
    derive_base_name "2014-03-02 10:00" "My Trip" 7 = "20140302_My Trip" ∧
    derive_base_name "未知" "" 7 = "post_0007" := by
  exact ⟨rfl, rfl⟩

/-- The declared encoding is absent, empty, or the low-confidence
`iso-8859-1` placeholder (case-insensitively) — the condition under which
`normalize_encoding` distrusts it. -/
def declaredUnreliable (declared : Option String) : Prop :=
  declared = none ∨ declared = some "" ∨
    ∃ e, declared = some e ∧ lowerS e = "iso-8859-1"

/-- The first 4096 bytes decoded permissively (ASCII, errors ignored). -/
def headWindow (content : List Nat) : String :=
  String.mk (asciiDecodeIgnore (content.take 4096))

/-- C3: the resolver keeps a declared encoding unless it is the
`iso-8859-1` placeholder (case-insensitive); otherwise it tries, in
order, the case-insensitive `charset=` regex over the first 4096 bytes
decoded permissively, HTML meta-tag sniffing over the same window,
statistical detection over the content, and finally the fixed default
`utf-8`.  (It always assigns exactly one encoding and never fails: in the
embedding `normalize_encoding` is a total `String`-valued function.) -/
theorem normalize_encoding_chain (declared : Option String) (content : List Nat)
    (sniff : String → List String) (apparent : Option String) :
    (∀ e, declared = some e → e ≠ "" → lowerS e ≠ "iso-8859-1" →
      normalize_encoding declared content sniff apparent = e) ∧
    (declaredUnreliable declared →
      (∀ enc, scanCharset (headWindow content).toList = some enc →
        normalize_encoding declared content sniff apparent = enc) ∧
      (scanCharset (headWindow content).toList = none →
        (∀ e rest, sniff (headWindow content) = e :: rest →
          normalize_encoding declared content sniff apparent = e) ∧
        (sniff (headWindow content) = [] →
          normalize_encoding declared content sniff apparent =
            (match apparent with
             | some a => if a ≠ "" then a else "utf-8"
             | none => "utf-8")))) := by
  have hwin : (headWindow content).toList = asciiDecodeIgnore (content.take 4096) := rfl
  constructor
  · intro e he hne hni
    subst he
    simp [normalize_encoding, hne, hni]
  · intro hd
    have heq : normalize_encoding declared content sniff apparent =
        encodingFallback content sniff apparent := by
      rcases hd with h | h | ⟨e, he, hl⟩
      · subst h; rfl
      · subst h; rfl
      · subst he; simp [normalize_encoding, hl]
    rw [heq]
    refine ⟨?_, ?_⟩
    · intro enc henc
      rw [hwin] at henc
      simp [encodingFallback, henc]
    · intro hnone
      rw [hwin] at hnone
      refine ⟨?_, ?_⟩
      · intro e rest hsniff
        simp only [headWindow] at hsniff
        simp [encodingFallback, hnone, hsniff]
      · intro hsniff
        simp only [headWindow] at hsniff
        simp [encodingFallback, hnone, hsniff]

/-- Concrete instance of C3: a response declaring the `ISO-8859-1`
placeholder whose body contains `charset=gb2312` in the head window
resolves to `gb2312`. -/
theorem normalize_encoding_chain_witness :
    normalize_encoding (some "ISO-8859-1")
      ("<html><head><meta charset=gb2312>".toList.map Char.toNat)
      (fun _ => []) none = "gb2312" :=
  ((normalize_encoding_chain (some "ISO-8859-1")
      ("<html><head><meta charset=gb2312>".toList.map Char.toNat)
      (fun _ => []) none).2
    (Or.inr (Or.inr ⟨"ISO-8859-1", rfl, by decide⟩))).1 "gb2312" (by decide)

/-- C2: the first chain entry that matches with non-empty text wins:
with a chain `[A, B]`, a structural selector `A` matching a node with
non-empty text makes `pick_text` return exactly `A`'s text, never
consulting `B`; a matching node with empty text, and a matching `meta:`
entry without a (non-empty) `content` attribute, fall through to the
rest of the chain. -/
theorem pick_text_chain_priority (doc : Node) (A B : String) :
    (∀ n, A ≠ "" → startsWithS A "meta:" = false → selectOne doc A = some n →
      getText " " n ≠ "" → pick_text doc [A, B] = getText " " n) ∧
    (∀ n, A ≠ "" → startsWithS A "meta:" = false → selectOne doc A = some n →
      getText " " n = "" → pick_text doc [A, B] = pick_text doc [B]) ∧
    (∀ m, startsWithS A "meta:" = true →
      findMeta doc (String.mk (A.toList.drop 5)) = some m →
      (getAttr m "content" = none ∨ getAttr m "content" = some "") →
      pick_text doc [A, B] = pick_text doc [B]) := by
  refine ⟨?_, ?_, ?_⟩
  · intro n hA hm hsel ht
    simp [pick_text, hA, hm, hsel, ht]
  · intro n hA hm hsel ht
    simp [pick_text, hA, hm, hsel, ht]
  · intro m hm hfind hc
    have hA : ¬(A = "") := by
      intro h
      subst h
      simp [startsWithS, isPrefixCh] at hm
    simp only [String.toList] at hfind
    rcases hc with h | h <;> simp [pick_text, hA, hm, hfind, h]

/-- The first-matching element of the C2 witness document. -/
def wnodeA : Node := .elem "p" [("class", "a")] [.text "first"]

/-- A document where both chain entries match, with different text. -/
def wdocC2 : Node :=
  .elem "[document]" [] [wnodeA, .elem "p" [("class", "b")] [.text "second"]]

/-- Concrete instance of C2: both `.a` and `.b` match, and the chain
`[".a", ".b"]` returns `.a`'s text. -/
theorem pick_text_chain_priority_witness :
    pick_text wdocC2 [".a", ".b"] = "first" :=
  (pick_text_chain_priority wdocC2 ".a" ".b").1 wnodeA (by decide) (by decide) rfl
    (by decide)

/-- C5: `parse_article` never fails on missing fields: it is a total
function whose record always carries all six fields, and each field
independently degrades — title, timestamp and category to `""` when both
the configured chain and the heuristic yield nothing, tags to `[]` (both
when the configured tag chains match nothing and when there are no
configured chains and the heuristic finds nothing), and the content
markup to `""` when no content node is found; the URL is passed through. -/
theorem parse_article_total_defaults (doc : Node) (url : String) (sels : Selectors) :
    (parse_article doc url sels).url = url ∧
    (pick_text doc sels.title = "" → guess_title doc = "" →
      (parse_article doc url sels).title = "") ∧
    (pick_text doc sels.time = "" → guess_time doc = "" →
      (parse_article doc url sels).published_at = "") ∧
    (pick_text doc sels.category = "" → guess_category doc = "" →
      (parse_article doc url sels).category = "") ∧
    (sels.tags = [] → guess_tags doc = [] → (parse_article doc url sels).tags = []) ∧
    (sels.tags ≠ [] → collectTags doc sels.tags = [] →
      (parse_article doc url sels).tags = []) ∧
    (guess_content_node doc sels.content = none →
      (parse_article doc url sels).content_html = "") := by
  refine ⟨rfl, ?_, ?_, ?_, ?_, ?_, ?_⟩
  · intro h1 h2; simp [parse_article, orStr, h1, h2]
  · intro h1 h2; simp [parse_article, orStr, h1, h2]
  · intro h1 h2; simp [parse_article, orStr, h1, h2]
  · intro h1 h2; simp [parse_article, h1, h2]
  · intro h1 h2; simp [parse_article, h1, h2]
  · intro h1; simp [parse_article, h1]

/-- Concrete instance of C5: on a document with no extractable fields and
an empty configuration, every field of the parsed article is empty. -/
theorem parse_article_total_defaults_witness :
    (parse_article (Node.elem "[document]" [] []) "u" {}).title = "" ∧
    (parse_article (Node.elem "[document]" [] []) "u" {}).tags = [] ∧
    (parse_article (Node.elem "[document]" [] []) "u" {}).content_html = "" ∧
    (parse_article (Node.elem "[document]" [] []) "u" {}).url = "u" :=
  ⟨(parse_article_total_defaults (Node.elem "[document]" [] []) "u" {}).2.1 rfl rfl,
   (parse_article_total_defaults (Node.elem "[document]" [] []) "u" {}).2.2.2.2.1 rfl rfl,
   (parse_article_total_defaults (Node.elem "[document]" [] []) "u" {}).2.2.2.2.2.2 rfl,
   (parse_article_total_defaults (Node.elem "[document]" [] []) "u" {}).1⟩

/-- A `div` with no class or id of its own whose contents are a
`blog_tag`-classed span and a long text run: `is_tag_block` classifies it
(via the descendant rule) but `is_noise_node` does not. -/
def tagBlockDiv : Node :=
  .elem "div" []
    [.elem "span" [("class", "blog_tag")] [.text "标签 旅行 美食"],
     .text "这是页面上最长的一段文字，远远超过其他区块的可见文本长度。"]

/-- A page whose only `div` is `tagBlockDiv`, so the last-resort scan of
`guess_content_node` reaches it. -/
def cdocC1 : Node :=
  .elem "[document]" [] [.elem "body" [] [tagBlockDiv]]

/-- C1 (counterexample): with no configured content selector,
`guess_content_node` returns `tagBlockDiv` through the last-resort
largest-text scan even though `is_tag_block` classifies it as a tag
block — the scan filters only noise nodes, and a tag block recognised
via a descendant tag-class (or the short-text rule) need not be a noise
node. -/
theorem guess_content_node_returns_tag_block :
    guess_content_node cdocC1 [] = some tagBlockDiv ∧
    is_tag_block tagBlockDiv = true :=
  ⟨rfl, rfl⟩

/-- Lower-casing preserves prefixes. -/
theorem isPrefixCh_lower {a b : List Char} (h : isPrefixCh a b = true) :
    isPrefixCh (lowerC a) (lowerC b) = true := by
  induction a generalizing b with
  | nil => simp [isPrefixCh, lowerC]
  | cons x xs ih =>
    cases b with
    | nil => simp [isPrefixCh] at h
    | cons y ys =>
      simp only [isPrefixCh, Bool.and_eq_true, decide_eq_true_eq] at h
      obtain ⟨hxy, hrest⟩ := h
      subst hxy
      have := ih hrest
      simp only [lowerC, List.map_cons] at this ⊢
      simp [isPrefixCh, this]

/-- Lower-casing preserves substring containment. -/
theorem containsSub_lower {nd hay : List Char} (h : containsSub nd hay = true) :
    containsSub (lowerC nd) (lowerC hay) = true := by
  induction hay with
  | nil =>
    cases nd with
    | nil => simp_all [containsSub, isPrefixCh, lowerC]
    | cons c cs => simp [containsSub, isPrefixCh] at h
  | cons c rest ih =>
    simp only [containsSub, Bool.or_eq_true] at h
    rcases h with h | h
    · have := isPrefixCh_lower h
      simp only [lowerC, List.map_cons] at this ⊢
      simp [containsSub, this]
    · have := ih h
      simp only [lowerC, List.map_cons] at this ⊢
      simp [containsSub, this]

/-- A node not classified as a tag block has no `articalTag` class marker
(the marker check is the classifier's first rule). -/
theorem is_tag_block_false_no_marker {n : Node} (h : is_tag_block n = false) :
    containsSubS (joinedClasses n) "articalTag" = false := by
  cases hcc : containsSubS (joinedClasses n) "articalTag" with
  | false => rfl
  | true => simp [is_tag_block, hcc] at h

/-- A node not classified as noise has no `articalTag` class marker
(`articaltag` is one of the lower-cased class needles). -/
theorem is_noise_node_false_no_marker {n : Node} (h : is_noise_node n = false) :
    containsSubS (joinedClasses n) "articalTag" = false := by
  cases hcc : containsSubS (joinedClasses n) "articalTag" with
  | false => rfl
  | true =>
    exfalso
    have hcc2 : containsSub "articalTag".toList (joinedClasses n).toList = true := hcc
    have hlow := containsSub_lower hcc2
    have hlit : lowerC "articalTag".toList = "articaltag".toList := by decide
    rw [hlit] at hlow
    have hany : containsAny (lowerC (joinedClasses n).toList)
        (noiseNeedles ++ ["articaltag"]) = true := by
      simp only [containsAny, List.any_eq_true]
      exact ⟨"articaltag", by simp [noiseNeedles], hlow⟩
    simp only [is_noise_node] at h
    split at h
    · simp at h
    · rw [hany] at h
      simp at h

/-- `tryFixedSelectors` only returns nodes it checked against
`is_tag_block`. -/
theorem tryFixedSelectors_not_tag_block (doc : Node) :
    ∀ (l : List String) (n : Node),
      tryFixedSelectors doc l = some n → is_tag_block n = false := by
  intro l
  induction l with
  | nil => intro n h; simp [tryFixedSelectors] at h
  | cons s rest ih =>
    intro n h
    simp only [tryFixedSelectors] at h
    cases hs : selectOne doc s with
    | none => rw [hs] at h; exact ih n h
    | some node =>
      rw [hs] at h
      dsimp only at h
      by_cases ht : is_tag_block node = false
      · rw [if_pos ht] at h
        cases h
        exact ht
      · rw [if_neg ht] at h
        exact ih n h

/-- `pickLargest` picks an element of its input. -/
theorem pickLargest_mem : ∀ (l : List Node) (n : Node), pickLargest l = some n → n ∈ l := by
  intro l
  induction l with
  | nil => intro n h; simp [pickLargest] at h
  | cons c rest ih =>
    intro n h
    simp only [pickLargest] at h
    cases hr : pickLargest rest with
    | none =>
      rw [hr] at h
      dsimp only at h
      cases h
      exact List.mem_cons_self _ _
    | some b =>
      rw [hr] at h
      dsimp only at h
      by_cases ht : textLen b > textLen c
      · rw [if_pos ht] at h
        cases h
        exact List.mem_cons_of_mem _ (ih _ hr)
      · rw [if_neg ht] at h
        cases h
        exact List.mem_cons_self _ _

/-- The last-resort scan never returns a noise node. -/
theorem lastResortScan_not_noise (doc : Node) (n : Node)
    (h : lastResortScan doc = some n) : is_noise_node n = false := by
  simp only [lastResortScan] at h
  by_cases h1 : (findAllTag doc "div").isEmpty
  · rw [if_pos h1] at h; cases h
  · rw [if_neg h1] at h
    by_cases h2 : ((findAllTag doc "div").filter fun c => is_noise_node c = false).isEmpty
    · rw [if_pos h2] at h; cases h
    · rw [if_neg h2] at h
      have hmem := pickLargest_mem _ _ h
      have := List.mem_filter.mp hmem
      exact of_decide_eq_true this.2

/-- C1 (amended): when the configured content-selector chain yields no
match, `guess_content_node` never returns a container whose own class
attribute contains the `articalTag` marker: the fixed-priority,
id-pattern and class-pattern branches skip every classified tag block,
and the last-resort scan skips noise nodes, whose class needles include
`articaltag`.  (Tag blocks recognised only via a descendant tag/category
class or via the short tag-and-category text rule can still be returned
by the last-resort scan, as the counterexample shows.) -/
theorem guess_content_node_articalTag_avoidance (doc : Node) (sels : List String)
    (n : Node) (hp : pick_html doc sels = none)
    (hg : guess_content_node doc sels = some n) :
    containsSubS (joinedClasses n) "articalTag" = false := by
  simp only [guess_content_node, hp] at hg
  cases hf : tryFixedSelectors doc fixedContentSelectors with
  | some node =>
    rw [hf] at hg
    dsimp only at hg
    cases hg
    exact is_tag_block_false_no_marker (tryFixedSelectors_not_tag_block doc _ _ hf)
  | none =>
    rw [hf] at hg
    dsimp only at hg
    have fromAfter : ∀ m, contentAfterId doc = some m →
        containsSubS (joinedClasses m) "articalTag" = false := by
      intro m hm
      simp only [contentAfterId] at hm
      cases hc : findDivClassSub doc ["articalcontent", "article", "post", "content"] with
      | some node2 =>
        rw [hc] at hm
        dsimp only at hm
        by_cases ht : is_tag_block node2 = false
        · rw [if_pos ht] at hm
          cases hm
          exact is_tag_block_false_no_marker ht
        · rw [if_neg ht] at hm
          exact is_noise_node_false_no_marker (lastResortScan_not_noise doc m hm)
      | none =>
        rw [hc] at hm
        exact is_noise_node_false_no_marker (lastResortScan_not_noise doc m hm)
    cases hi : findDivIdSub doc "sina_keyword_ad_area" with
    | some node =>
      rw [hi] at hg
      dsimp only at hg
      by_cases ht : is_tag_block node = false
      · rw [if_pos ht] at hg
        cases hg
        exact is_tag_block_false_no_marker ht
      · rw [if_neg ht] at hg
        exact fromAfter n hg
    | none =>
      rw [hi] at hg
      exact fromAfter n hg

/-- Concrete instance of the amended C1: the returned `tagBlockDiv` has
no `articalTag` marker in its own class attribute. -/
theorem guess_content_node_articalTag_avoidance_witness :
    containsSubS (joinedClasses tagBlockDiv) "articalTag" = false :=
  guess_content_node_articalTag_avoidance cdocC1 [] tagBlockDiv rfl rfl

/-- A successful literal consumption means the literal was a prefix. -/
theorem dropLit_isPrefixCh :
    ∀ (lit cs r : List Char), dropLit lit cs = some r → isPrefixCh lit cs = true := by
  intro lit
  induction lit with
  | nil => intro cs r _; rfl
  | cons a as ih =>
    intro cs r h
    cases cs with
    | nil => simp [dropLit] at h
    | cons b bs =>
      simp only [dropLit] at h
      by_cases hab : a = b
      · rw [if_pos hab] at h
        subst hab
        have := ih bs r h
        simp [isPrefixCh, this]
      · rw [if_neg hab] at h
        cases h
/-- Any match of the structural article-URL regex contains the canonical
path-segment literal: the regex begins with that exact literal. -/
theorem searchBlogRegex_implies_contains :
    ∀ l, searchBlogRegex l = true → containsSub blogUrlLit l = true := by
  intro l
  induction l with
  | nil => intro h; simp [searchBlogRegex] at h
  | cons c rest ih =>
    intro h
    simp only [searchBlogRegex, Bool.or_eq_true] at h
    simp only [containsSub, Bool.or_eq_true]
    rcases h with h | h
    · left
      simp only [matchBlogRegexAt] at h
      cases hd : dropLit blogUrlLit (c :: rest) with
      | none => rw [hd] at h; dsimp only at h; cases h
      | some r => exact dropLit_isPrefixCh _ _ _ hd
    · right; exact ih h

/-- C10: with no configured article-URL pattern, `is_article_url` is
equivalent to the single substring check for
`blog.sina.com.cn/s/blog_`: the final structural-regex branch never
accepts a URL the substring check rejected, because every string
matching that regex necessarily contains the literal. -/
theorem is_article_url_substring_equiv (url : String) :
    is_article_url none url = containsSub blogUrlLit url.toList := by
  simp only [is_article_url]
  cases hc : containsSub blogUrlLit url.toList with
  | true => simp [hc]
  | false =>
    simp only [hc, Bool.false_eq_true, if_false]
    cases hs : searchBlogRegex url.toList with
    | false => rfl
    | true =>
      have := searchBlogRegex_implies_contains _ hs
      rw [hc] at this
      cases this

/-- Two nodes with the same constructor, tag and attributes (children
free): the part of a node every classifier predicate of `clean_content`
reads. -/
def headEq : Node → Node → Prop
  | .text s, .text t => s = t
  | .elem t a _, .elem t2 a2 _ => t = t2 ∧ a = a2
  | _, _ => False

theorem headEq_refl (n : Node) : headEq n n := by
  cases n <;> simp [headEq]

/-- Pointwise `headEq` on ancestor lists. -/
def headEqL (l1 l2 : List Node) : Prop := List.Forall₂ headEq l1 l2

theorem headEqL_refl (l : List Node) : headEqL l l :=
  List.forall₂_same.mpr fun x _ => headEq_refl x

theorem tagOf_headEq {n m : Node} (h : headEq n m) : tagOf n = tagOf m := by
  cases n <;> cases m <;> simp [headEq] at h <;> try rfl
  obtain ⟨ht, _⟩ := h
  rw [tagOf, tagOf, ht]

theorem matchesSimple_headEq {n m : Node} (h : headEq n m) (s : SimpleSel) :
    matchesSimple n s = matchesSimple m s := by
  cases n <;> cases m <;> simp [headEq] at h
  · rfl
  · obtain ⟨ht, ha⟩ := h
    subst ht
    subst ha
    rfl

theorem ancChainMatches_congr {anc anc2 : List Node} (h : headEqL anc anc2) :
    ∀ cs, ancChainMatches cs anc = ancChainMatches cs anc2 := by
  induction h with
  | nil => intro cs; cases cs <;> rfl
  | cons hh ht ih =>
    intro cs
    cases cs with
    | nil => rfl
    | cons c rest =>
      simp only [ancChainMatches]
      rw [matchesSimple_headEq hh, ih rest, ih (c :: rest)]

theorem chainMatches_congr {n m : Node} (hnm : headEq n m) {anc anc2 : List Node}
    (h : headEqL anc anc2) (chain : List SimpleSel) :
    chainMatches chain n anc = chainMatches chain m anc2 := by
  simp only [chainMatches]
  cases chain.reverse with
  | nil => rfl
  | cons c rest =>
    dsimp only
    rw [matchesSimple_headEq hnm, ancChainMatches_congr h]

/-- A classifier predicate reading only heads: equal on head-equal inputs. -/
def predCongr (p : List Node → Node → Bool) : Prop :=
  ∀ anc anc2 n m, headEqL anc anc2 → headEq n m → p anc n = p anc2 m

theorem scriptPred_congr : predCongr scriptPred := by
  intro anc anc2 n m _ hnm
  simp only [scriptPred, isScriptLike]
  rw [tagOf_headEq hnm]

theorem matchesCleanSel_pred_congr : predCongr matchesCleanSel := by
  intro anc anc2 n m h hnm
  simp only [matchesCleanSel]
  exact congrArg _ (funext fun g => chainMatches_congr hnm h g)

theorem predCongr_or {p q : List Node → Node → Bool}
    (hp : predCongr p) (hq : predCongr q) :
    predCongr (fun a m => p a m || q a m) := by
  intro anc anc2 n m h hnm
  simp only [hp anc anc2 n m h hnm, hq anc anc2 n m h hnm]

/-- Pruning keeps a node's constructor, tag and attributes. -/
theorem pruneWith_headEq (p : List Node → Node → Bool) (anc : List Node) (n : Node) :
    headEq (pruneWith p anc n) n := by
  cases n <;> simp [pruneWith, headEq]

mutual
/-- Pruning with a head-reading predicate ignores head-equal differences
of the ancestor context. -/
theorem pruneWith_congr (p : List Node → Node → Bool) (hp : predCongr p) :
    ∀ (n : Node) (anc1 anc2 : List Node), headEqL anc1 anc2 →
      pruneWith p anc1 n = pruneWith p anc2 n
  | .text _, _, _, _ => rfl
  | .elem t a cs, anc1, anc2, h => by
    simp only [pruneWith]
    rw [pruneListWith_congr p hp cs _ _ (List.Forall₂.cons (headEq_refl _) h)]

theorem pruneListWith_congr (p : List Node → Node → Bool) (hp : predCongr p) :
    ∀ (ns : List Node) (anc1 anc2 : List Node), headEqL anc1 anc2 →
      pruneListWith p anc1 ns = pruneListWith p anc2 ns
  | [], _, _, _ => rfl
  | c :: rest, anc1, anc2, h => by
    simp only [pruneListWith]
    rw [hp anc1 anc2 c c h (headEq_refl c)]
    by_cases hc : p anc2 c = true
    · rw [if_pos hc, if_pos hc, pruneListWith_congr p hp rest _ _ h]
    · rw [if_neg hc, if_neg hc, pruneListWith_congr p hp rest _ _ h,
        pruneWith_congr p hp c _ _ h]
end

mutual
/-- Composing two pruning passes with head-reading predicates equals one
pass with the disjunction. -/
theorem pruneWith_comp (p q : List Node → Node → Bool)
    (hp : predCongr p) (hq : predCongr q) :
    ∀ (n : Node) (anc : List Node),
      pruneWith q anc (pruneWith p anc n) =
        pruneWith (fun a m => p a m || q a m) anc n
  | .text _, _ => rfl
  | .elem t a cs, anc => by
    simp only [pruneWith]
    rw [pruneListWith_congr q hq _ _ _
      (List.Forall₂.cons
        (show headEq (Node.elem t a (pruneListWith p (Node.elem t a cs :: anc) cs))
            (Node.elem t a cs) from ⟨rfl, rfl⟩)
        (headEqL_refl anc))]
    rw [pruneListWith_comp p q hp hq cs (Node.elem t a cs :: anc)]

theorem pruneListWith_comp (p q : List Node → Node → Bool)
    (hp : predCongr p) (hq : predCongr q) :
    ∀ (ns : List Node) (anc : List Node),
      pruneListWith q anc (pruneListWith p anc ns) =
        pruneListWith (fun a m => p a m || q a m) anc ns
  | [], _ => rfl
  | c :: rest, anc => by
    simp only [pruneListWith]
    by_cases h1 : p anc c = true
    · rw [if_pos h1, if_pos (show (p anc c || q anc c) = true by simp [h1])]
      exact pruneListWith_comp p q hp hq rest anc
    · rw [if_neg h1]
      simp only [pruneListWith]
      rw [hq anc anc _ c (headEqL_refl anc) (pruneWith_headEq p anc c)]
      by_cases h2 : q anc c = true
      · rw [if_pos h2, if_pos (show (p anc c || q anc c) = true by simp [h2])]
        exact pruneListWith_comp p q hp hq rest anc
      · rw [if_neg h2,
          if_neg (show ¬((p anc c || q anc c) = true) by
            simp [Bool.eq_false_iff.mpr h1, Bool.eq_false_iff.mpr h2])]
        rw [pruneWith_comp p q hp hq c anc, pruneListWith_comp p q hp hq rest anc]
end

/-- C9: content sanitization is idempotent — applying `clean_content` to
an already-sanitized node changes nothing: each removal predicate reads
only a node's tag/attribute head, which pruning preserves, so both
passes collapse to a single pruning with the disjoined predicate, and
pruning twice with one head-reading predicate is pruning once. -/
theorem clean_content_idempotent (n : Node) :
    clean_content (clean_content n) = clean_content n := by
  have hU : predCongr (fun a m => scriptPred a m || matchesCleanSel a m) :=
    predCongr_or scriptPred_congr matchesCleanSel_pred_congr
  have hcomp : ∀ m, clean_content m =
      pruneWith (fun a x => scriptPred a x || matchesCleanSel a x) [] m := fun m =>
    pruneWith_comp scriptPred matchesCleanSel scriptPred_congr
      matchesCleanSel_pred_congr m []
  rw [hcomp n, hcomp, pruneWith_comp _ _ hU hU n []]
  have hself : (fun (a : List Node) (m : Node) =>
      (scriptPred a m || matchesCleanSel a m) || (scriptPred a m || matchesCleanSel a m)) =
      (fun a m => scriptPred a m || matchesCleanSel a m) := by
    funext a m
    exact Bool.or_self _
  rw [hself]

/-- `setAdd` preserves distinctness. -/
theorem setAdd_nodup {s : List String} (h : s.Nodup) (x : String) :
    (setAdd s x).Nodup := by
  simp only [setAdd]
  by_cases hc : s.contains x = true
  · rw [if_pos hc]; exact h
  · rw [if_neg hc]
    rw [List.nodup_append]
    refine ⟨h, List.nodup_singleton x, ?_⟩
    intro a ha hax
    rw [List.mem_singleton] at hax
    subst hax
    exact hc (List.elem_eq_true_of_mem ha)

/-- Folding a distinctness-preserving step preserves distinctness. -/
theorem foldl_nodup_preserve {α : Type} (step : List String → α → List String)
    (hstep : ∀ acc a, acc.Nodup → (step acc a).Nodup) :
    ∀ (l : List α) (acc : List String), acc.Nodup → (l.foldl step acc).Nodup := by
  intro l
  induction l with
  | nil => intro acc h; exact h
  | cons a rest ih => intro acc h; exact ih _ (hstep acc a h)

/-- The per-page output of link discovery is duplicate-free. -/
theorem extract_article_links_nodup (doc : Node) (base list_link : String)
    (pat : Option (String → Bool)) (uj : String → String → String) :
    (extract_article_links doc base list_link pat uj).Nodup := by
  simp only [extract_article_links]
  apply foldl_nodup_preserve
  · intro acc a h
    dsimp only
    by_cases h1 : trimS ((getAttr a "href").getD "") = ""
    · rw [if_pos h1]; exact h
    · rw [if_neg h1]
      by_cases h2 : is_article_url pat (uj base (trimS ((getAttr a "href").getD ""))) = true
      · rw [if_pos h2]; exact setAdd_nodup h _
      · rw [if_neg h2]; exact h
  · exact List.nodup_nil

/-- The accumulation loop keeps the discovered list duplicate-free, as
long as every page's link set is itself duplicate-free and everything
accumulated so far is in the seen-set. -/
theorem collectLinks_nodup :
    ∀ (pages : List (List String)) (seen acc : List String),
      (∀ p ∈ pages, p.Nodup) → acc.Nodup → (∀ x ∈ acc, x ∈ seen) →
      (collectLinks seen acc pages).Nodup := by
  intro pages
  induction pages with
  | nil => intro seen acc _ h2 _; exact h2
  | cons page rest ih =>
    intro seen acc h1 h2 h3
    simp only [collectLinks]
    by_cases hnew : page.filter (fun l => !(seen.contains l)) = []
    · rw [if_pos hnew]; exact h2
    · rw [if_neg hnew]
      apply ih
      · intro p hp; exact h1 p (List.mem_cons_of_mem _ hp)
      · rw [List.nodup_append]
        refine ⟨h2, (h1 page (List.mem_cons_self _ _)).filter _, ?_⟩
        intro x hx hx2
        have hxseen := h3 x hx
        have hnot := List.of_mem_filter hx2
        simp only [Bool.not_eq_true'] at hnot
        exact absurd (List.elem_eq_true_of_mem hxseen)
          (by rw [show seen.elem x = seen.contains x from rfl, hnot]; simp)
      · intro x hx
        rcases List.mem_append.mp hx with h | h
        · exact List.mem_append_left _ (h3 x h)
        · exact List.mem_append_right _ h

/-- Whatever is already accumulated survives to the end of the loop. -/
theorem collectLinks_acc_mem :
    ∀ (pages : List (List String)) (seen acc : List String) (x : String),
      x ∈ acc → x ∈ collectLinks seen acc pages := by
  intro pages
  induction pages with
  | nil => intro seen acc x hx; exact hx
  | cons page rest ih =>
    intro seen acc x hx
    simp only [collectLinks]
    by_cases h : page.filter (fun l => !(seen.contains l)) = []
    · rw [if_pos h]; exact hx
    · rw [if_neg h]; exact ih _ _ x (List.mem_append_left _ hx)

/-- C7: the accumulated discovered-URL list of the listing loop contains
each distinct absolute URL at most once no matter how many pages
repeated it (every page contributes only links not yet seen), every link
of the first listing page is accumulated (so each such URL appears
exactly once), and the per-page output of `extract_article_links` is
itself duplicate-free (it is built as a set). -/
theorem link_discovery_dedup (doc : Node) (base list_link : String)
    (pat : Option (String → Bool)) (uj : String → String → String)
    (pages : List (List String)) (hpages : ∀ p ∈ pages, p.Nodup) :
    (extract_article_links doc base list_link pat uj).Nodup ∧
    (collectLinks [] [] pages).Nodup ∧
    (∀ x ∈ pages.headD [], x ∈ collectLinks [] [] pages) := by
  refine ⟨extract_article_links_nodup doc base list_link pat uj,
    collectLinks_nodup pages [] [] hpages List.nodup_nil (by simp), ?_⟩
  cases pages with
  | nil => intro x hx; cases hx
  | cons p1 rest =>
    intro x hx
    simp only [List.headD_cons] at hx
    simp only [collectLinks]
    have hfilt : p1.filter (fun l => !((([] : List String)).contains l)) = p1 := by
      simp
    rw [hfilt]
    by_cases hemp : p1 = []
    · rw [hemp] at hx; cases hx
    · rw [if_neg hemp]
      exact collectLinks_acc_mem rest _ _ x (by simpa using hx)

/-- A listing page holding the same article link twice. -/
def wdocC7 : Node :=
  .elem "[document]" []
    [.elem "a" [("href", "http://blog.sina.com.cn/s/blog_a1.html")] [.text "x"],
     .elem "a" [("href", "http://blog.sina.com.cn/s/blog_a1.html")] [.text "y"],
     .elem "a" [("href", "http://blog.sina.com.cn/s/blog_b2.html")] [.text "z"]]

/-- Concrete instance of C7: a duplicated link on one page and two
overlapping pages still yield duplicate-free outputs containing the
first page's links. -/
theorem link_discovery_dedup_witness :
    (extract_article_links wdocC7 "http://blog.sina.com.cn/u/1" "" none
      (fun _ href => href)).Nodup ∧
    (collectLinks [] [] [["u1", "u2"], ["u2", "u3"]]).Nodup ∧
    (∀ x ∈ (([["u1", "u2"], ["u2", "u3"]] : List (List String))).headD [],
      x ∈ collectLinks [] [] [["u1", "u2"], ["u2", "u3"]]) :=
  link_discovery_dedup wdocC7 "http://blog.sina.com.cn/u/1" "" none
    (fun _ href => href) [["u1", "u2"], ["u2", "u3"]] (by
      intro p hp
      simp only [List.mem_cons, List.mem_singleton] at hp
      rcases hp with h | h | h <;> first | (subst h; decide) | cases h)

/-- C6: a fetch failure for one image leaves that element untouched
(still pointing at its original remote URL), records only the failed
attempt, and processing continues with the remaining images exactly as
it would from the post-failure state — a single image failure never
aborts the article. -/
theorem image_fetch_failure_leaves_src (uj : String → String → String)
    (fOk : String → Bool) (aurl : String) (st : DLState) (img : Node)
    (rest : List Node)
    (hsrc : resolvedSrc img ≠ "")
    (hcache : lookupCache st.cache (uj aurl (resolvedSrc img)) = none)
    (hfile : st.files.contains (image_filename (uj aurl (resolvedSrc img))) = false)
    (hfail : fOk (uj aurl (resolvedSrc img)) = false) :
    download_images uj fOk aurl (img :: rest) st =
      (img :: (download_images uj fOk aurl rest
          { st with fetched := st.fetched ++ [uj aurl (resolvedSrc img)] }).1,
        (download_images uj fOk aurl rest
          { st with fetched := st.fetched ++ [uj aurl (resolvedSrc img)] }).2) := by
  have hproc : processImg uj fOk aurl st img =
      (img, { st with fetched := st.fetched ++ [uj aurl (resolvedSrc img)] }) := by
    simp only [processImg, hcache, hfile, hfail]
    simp [hsrc]
  simp only [download_images, hproc]

/-- The concrete image element of the C6 witness. -/
def wimgC6 : Node := .elem "img" [("src", "http://x.cn/a.png")] []

/-- Concrete instance of C6: with a failing fetch, the single image
element comes back unchanged and only the attempt is logged. -/
theorem image_fetch_failure_leaves_src_witness :
    download_images (fun _ s => s) (fun _ => false) "http://x.cn/p.html"
      [wimgC6] ⟨[], [], []⟩ =
      ([wimgC6], ⟨[], [], ["http://x.cn/a.png"]⟩) :=
  image_fetch_failure_leaves_src (fun _ s => s) (fun _ => false)
    "http://x.cn/p.html" ⟨[], [], []⟩ wimgC6 [] (by decide) rfl rfl rfl

/-- The cache invariant of `download_images`: every cached local path is
the `images/`-relative path derived from its URL alone. -/
def cacheWF (st : DLState) : Prop :=
  ∀ u p, (u, p) ∈ st.cache → p = "images/" ++ image_filename u

/-- A successful cache lookup is a cache membership. -/
theorem lookupCache_mem :
    ∀ (l : List (String × String)) (u p : String),
      lookupCache l u = some p → (u, p) ∈ l := by
  intro l
  induction l with
  | nil => intro u p h; simp [lookupCache] at h
  | cons kv rest ih =>
    intro u p h
    obtain ⟨k, v⟩ := kv
    simp only [lookupCache] at h
    by_cases hk : k = u
    · rw [if_pos hk] at h
      cases h
      subst hk
      exact List.mem_cons_self _ _
    · rw [if_neg hk] at h
      exact List.mem_cons_of_mem _ (ih u p h)

/-- Invariants of one step of the image loop: the element is untouched or
rewritten to the path derived from its URL alone; the cache invariant is
preserved; the file set only grows; and any newly logged fetch is for a
URL whose derived file did not exist yet. -/
theorem processImg_inv (uj : String → String → String) (fOk : String → Bool)
    (aurl : String) (st : DLState) (img : Node) (hwf : cacheWF st) :
    ((processImg uj fOk aurl st img).1 = img ∨
      (processImg uj fOk aurl st img).1 =
        setAttr img "src" ("images/" ++ image_filename (uj aurl (resolvedSrc img)))) ∧
    cacheWF (processImg uj fOk aurl st img).2 ∧
    (∀ f, f ∈ st.files → f ∈ (processImg uj fOk aurl st img).2.files) ∧
    (∀ u, u ∈ (processImg uj fOk aurl st img).2.fetched →
      u ∈ st.fetched ∨ image_filename u ∉ st.files) := by
  by_cases hsrc : resolvedSrc img = ""
  · simp only [processImg, hsrc]
    exact ⟨Or.inl (by simp), by simpa using hwf, fun f hf => by simpa using hf,
      fun u hu => Or.inl (by simpa using hu)⟩
  · cases hc : lookupCache st.cache (uj aurl (resolvedSrc img)) with
    | some p =>
      have hp : p = "images/" ++ image_filename (uj aurl (resolvedSrc img)) :=
        hwf _ _ (lookupCache_mem _ _ _ hc)
      simp only [processImg, hc]
      rw [if_neg hsrc]
      exact ⟨Or.inr (by rw [hp]), hwf, fun f hf => hf, fun u hu => Or.inl hu⟩
    | none =>
      by_cases hfile :
          st.files.contains (image_filename (uj aurl (resolvedSrc img))) = true
      · simp only [processImg, hc]
        rw [if_neg hsrc]
        rw [if_pos hfile]
        refine ⟨Or.inr rfl, ?_, fun f hf => hf, fun u hu => Or.inl hu⟩
        intro u p hmem
        rcases List.mem_append.mp hmem with h | h
        · exact hwf u p h
        · rw [List.mem_singleton] at h
          cases h
          rfl
      · have hfile2 : st.files.contains
            (image_filename (uj aurl (resolvedSrc img))) = false := by
          simpa using hfile
        have hnotmem : image_filename (uj aurl (resolvedSrc img)) ∉ st.files :=
          fun hmem => hfile (List.elem_eq_true_of_mem hmem)
        by_cases hfOk : fOk (uj aurl (resolvedSrc img)) = true
        · simp only [processImg, hc]
          rw [if_neg hsrc]
          rw [if_neg hfile, if_pos hfOk]
          refine ⟨Or.inr rfl, ?_, ?_, ?_⟩
          · intro u p hmem
            rcases List.mem_append.mp hmem with h | h
            · exact hwf u p h
            · rw [List.mem_singleton] at h
              cases h
              rfl
          · intro f hf
            exact List.mem_append_left _ hf
          · intro u hu
            rcases List.mem_append.mp hu with h | h
            · exact Or.inl h
            · rw [List.mem_singleton] at h
              subst h
              exact Or.inr hnotmem
        · simp only [processImg, hc]
          rw [if_neg hsrc]
          rw [if_neg hfile, if_neg hfOk]
          refine ⟨Or.inl rfl, hwf, fun f hf => hf, ?_⟩
          intro u hu
          rcases List.mem_append.mp hu with h | h
          · exact Or.inl h
          · rw [List.mem_singleton] at h
            subst h
            exact Or.inr hnotmem

/-- The loop invariants of `download_images`, by induction over the
image list. -/
theorem download_images_inv (uj : String → String → String) (fOk : String → Bool)
    (aurl : String) :
    ∀ (imgs : List Node) (st : DLState), cacheWF st →
      (∀ pr ∈ ((download_images uj fOk aurl imgs st).1.zip imgs),
        pr.1 = pr.2 ∨ pr.1 = setAttr pr.2 "src"
          ("images/" ++ image_filename (uj aurl (resolvedSrc pr.2)))) ∧
      cacheWF (download_images uj fOk aurl imgs st).2 ∧
      (∀ f, f ∈ st.files → f ∈ (download_images uj fOk aurl imgs st).2.files) ∧
      (∀ u, u ∈ (download_images uj fOk aurl imgs st).2.fetched →
        u ∈ st.fetched ∨ image_filename u ∉ st.files) := by
  intro imgs
  induction imgs with
  | nil =>
    intro st hwf
    exact ⟨by simp [download_images], hwf, fun f hf => hf, fun u hu => Or.inl hu⟩
  | cons img rest ih =>
    intro st hwf
    obtain ⟨hd1, hwf2, hfiles2, hfetch2⟩ := processImg_inv uj fOk aurl st img hwf
    obtain ⟨ih1, ih2, ih3, ih4⟩ := ih (processImg uj fOk aurl st img).2 hwf2
    simp only [download_images]
    refine ⟨?_, ih2, ?_, ?_⟩
    · intro pr hpr
      rw [List.zip_cons_cons] at hpr
      rcases List.mem_cons.mp hpr with h | h
      · subst h
        exact hd1
      · exact ih1 pr h
    · intro f hf
      exact ih3 f (hfiles2 f hf)
    · intro u hu
      rcases ih4 u hu with h | h
      · rcases hfetch2 u h with h2 | h2
        · exact Or.inl h2
        · exact Or.inr h2
      · exact Or.inr fun hmem => h (hfiles2 _ hmem)

/-- C4: the localized filename is a deterministic pure function of the
absolute image URL alone — `image_filename` (a 12-character truncated
SHA-1 of the URL plus the URL-path extension, `.jpg` when absent or
longer than 5 characters) — so every rewritten element points at
`images/<image_filename url>` no matter when or in which run it is
processed; and a URL whose derived file already exists on disk is never
fetched over the network. -/
theorem image_localization_deterministic (uj : String → String → String)
    (fOk : String → Bool) (aurl : String) (imgs : List Node) (st : DLState)
    (hwf : cacheWF st) :
    (∀ pr ∈ ((download_images uj fOk aurl imgs st).1.zip imgs),
        pr.1 = pr.2 ∨ pr.1 = setAttr pr.2 "src"
          ("images/" ++ image_filename (uj aurl (resolvedSrc pr.2)))) ∧
    (∀ u, image_filename u ∈ st.files → u ∉ st.fetched →
        u ∉ (download_images uj fOk aurl imgs st).2.fetched) := by
  obtain ⟨h1, _, _, h4⟩ := download_images_inv uj fOk aurl imgs st hwf
  refine ⟨h1, ?_⟩
  intro u hfile hfetch hu
  rcases h4 u hu with h | h
  · exact hfetch h
  · exact h hfile

/-- Concrete instance of C4: when the derived file for a URL already
exists, re-running localization performs no network fetch for it. -/
theorem image_localization_deterministic_witness :
    "http://x.cn/b.png" ∉
      (download_images (fun _ s => s) (fun _ => true) "http://x.cn/p.html"
        [.elem "img" [("src", "http://x.cn/b.png")] []]
        ⟨[], [image_filename "http://x.cn/b.png"], []⟩).2.fetched :=
  (image_localization_deterministic (fun _ s => s) (fun _ => true)
    "http://x.cn/p.html" [.elem "img" [("src", "http://x.cn/b.png")] []]
    ⟨[], [image_filename "http://x.cn/b.png"], []⟩
    (by intro u p h; exact absurd h (List.not_mem_nil _))).2
    "http://x.cn/b.png" (List.mem_singleton.mpr rfl) (List.not_mem_nil _)
